import Mathlib

/- Verification of the qmail netdata plugin's log-ingestion engine.

   The definitions below are a shallow embedding of the C sources:
   read_log_file, reopen_log_file, process_fs_event (src/fs.c),
   prepare_watcher and the interval cycle of main (src/qmail.plugin.c),
   and ratelimitspp_process (src/ratelimitspp.c).  Bytes are modelled as
   Char, the fixed buffer char buf[] as a List Char together with its
   capacity parameter, and the OS read(2) boundary as a list of chunks
   handed to the reader. -/

/-- The line terminator byte that memchr scans for in read_log_file (src/fs.c). -/
def nl : Char := '\n'

/-- The reassembly state that struct fs_watch carries between reads:
the carried-over bytes buf[0..buffered) and the skip flag
(false = DO_NOT_SKIP, true = SKIP_THE_REST). -/
structure ReaderSt where
  buffered : List Char
  skip : Bool
deriving DecidableEq, Repr

/-- The inner for(;;) scan of read_log_file (src/fs.c:57-83) over the valid
span, one byte at a time; cur holds the bytes of the current segment scanned
so far (the bytes between `line` and the scan position).  When a terminator
is found the segment is dispatched unless skip is set (in which case skip is
cleared and the segment discarded).  When the span ends without a terminator:
a short remainder is kept as the new buffered content; a remainder that fills
the whole buffer is force-terminated at capacity-1, dispatched unless skip is
set, and skip is set for the rest of the overlong line. -/
def scanAux (cap : Nat) : Bool → List Char → List Char → List (List Char) × List Char × Bool
  | skip, cur, [] =>
    if 0 < cur.length ∧ cur.length < cap then ([], cur, skip)
    else if cur.length = cap then ((if skip then [] else [cur.take (cap - 1)]), [], true)
    else ([], [], skip)
  | skip, cur, c :: rest =>
    if c = nl then
      let p := scanAux cap false [] rest
      ((if skip then p.1 else cur :: p.1), p.2)
    else scanAux cap skip (cur ++ [c]) rest

/-- One iteration of the while (read > 0) body of read_log_file (src/fs.c:54-85):
the valid span is the carried-over bytes followed by the chunk the read returned;
buffered is zeroed and the span is scanned from its start.  Returns the new
reassembly state and the lines dispatched to the collector's process callback. -/
def processRead (cap : Nat) (st : ReaderSt) (chunk : List Char) : ReaderSt × List (List Char) :=
  let p := scanAux cap st.skip [] (st.buffered ++ chunk)
  (⟨p.2.1, p.2.2⟩, p.1)

/-- The read loop of read_log_file across any number of invocations: each element
of chunks is the return of one read(2) with a positive result.  read(2) is offered
cap - buffered bytes of space, so it can never return more than that, and the
while condition only lets positive returns through; chunk sequences the OS cannot
produce are rejected with none. -/
def runReads (cap : Nat) : ReaderSt → List (List Char) → Option (ReaderSt × List (List Char))
  | st, [] => some (st, [])
  | st, c :: cs =>
    if c ≠ [] ∧ c.length ≤ cap - st.buffered.length then
      let p := processRead cap st c
      match runReads cap p.1 cs with
      | some q => some (q.1, p.2 ++ q.2)
      | none => none
    else none

/-- Specification-side view — the newline-terminated lines of a byte stream;
cur accumulates the segment being scanned. -/
def linesAux : List Char → List Char → List (List Char)
  | _, [] => []
  | cur, c :: rest => if c = nl then cur :: linesAux [] rest else linesAux (cur ++ [c]) rest

/-- The newline-terminated lines of an unsplit byte stream. -/
def streamLines (s : List Char) : List (List Char) := linesAux [] s

/-- Accumulator form of the trailing unterminated segment of a stream. -/
def tailAux : List Char → List Char → List Char
  | cur, [] => cur
  | cur, c :: rest => if c = nl then tailAux [] rest else tailAux (cur ++ [c]) rest

/-- The bytes of a stream after its last line terminator. -/
def tailSeg (s : List Char) : List Char := tailAux [] s

/-- Every line of the stream, its trailing unterminated segment included,
is shorter than the buffer capacity. -/
def segsBounded (cap : Nat) (s : List Char) : Prop :=
  (∀ l ∈ streamLines s, l.length < cap) ∧ (tailSeg s).length < cap

instance (cap : Nat) (s : List Char) : Decidable (segsBounded cap s) :=
  inferInstanceAs (Decidable ((∀ l ∈ streamLines s, l.length < cap) ∧ (tailSeg s).length < cap))

/-- enum nd_err.  err.h is not under src; ND_SUCCESS, ND_FILE, ND_INOTIFY and
ND_ALLOC appear in the sources.  Modelled from the spec: the specification's
error taxonomy (spec.md §7) additionally names a ReadError variant for
non-would-block read failures, included here as readError so the value
read_log_file actually returns can be compared against it. -/
inductive NdErr
  | success
  | file
  | inotify
  | alloc
  | readError
deriving DecidableEq, Repr

/-- How the read(2) sequence of one read_log_file invocation ends:
end of file (return 0), would-block (return -1 with errno EAGAIN), or a
genuine I/O error (return -1 with any other errno). -/
inductive ReadEnding
  | eof
  | wouldBlock
  | ioError
deriving DecidableEq, Repr

/-- An open file description: the contents of the attached file and the
current read offset.  none in the fd field of RWatch models fd == -1. -/
structure OpenFile where
  content : List Char
  offset : Nat
deriving DecidableEq, Repr

/-- The fields of struct fs_watch that fs.c reads and writes:
the inotify watch token, the watched entry name, the open file and the
reassembly state. -/
structure RWatch where
  watch_dir : Int
  file_name : List Char
  fd : Option OpenFile
  st : ReaderSt
deriving DecidableEq, Repr

/-- read_log_file (src/fs.c:44-88) with the read(2) returns supplied as a
script: watch->fd == -1 returns ND_FILE at once; otherwise the loop processes
every positive return and exits on the first non-positive one.  The code never
inspects errno, so the ending — end of file, would-block or a genuine I/O
error — is taken as an argument and never used: whichever way the reads end,
the function falls through to return ND_SUCCESS. -/
def read_log_file (cap : Nat) (w : RWatch) (reads : List (List Char))
    (ending : ReadEnding) : Option (RWatch × List (List Char) × NdErr) :=
  match w.fd with
  | none => some (w, [], NdErr.file)
  | some _ =>
    match runReads cap w.st reads with
    | some p => some ({ w with st := p.1 }, p.2, NdErr.success)
    | none => none

/-- The read loop of read_log_file run against a regular file: each read(2)
returns min(space offered, bytes remaining before end of file), and the loop
runs until a read returns 0.  fuel bounds the recursion; every productive step
consumes at least one byte, so content.length + 1 fuel always suffices.
Returns the final reassembly state, the final file offset and the dispatched
lines. -/
def drainReads (cap : Nat) : Nat → ReaderSt → List Char → Nat → ReaderSt × Nat × List (List Char)
  | 0, st, _, off => (st, off, [])
  | fuel + 1, st, content, off =>
    let remaining := content.drop off
    if remaining.length = 0 then (st, off, [])
    else
      let n := min (cap - st.buffered.length) remaining.length
      if n = 0 then (st, off, [])
      else
        let p := processRead cap st (remaining.take n)
        let d := drainReads cap fuel p.1 content (off + n)
        (d.1, d.2.1, p.2 ++ d.2.2)

/-- read_log_file against the regular file held in the watch's fd. -/
def read_log_file_drain (cap : Nat) (w : RWatch) : RWatch × List (List Char) × NdErr :=
  match w.fd with
  | none => (w, [], NdErr.file)
  | some f =>
    let d := drainReads cap (f.content.length + 1) w.st f.content f.offset
    ({ w with st := d.1, fd := some ⟨f.content, d.2.1⟩ }, d.2.2, NdErr.success)

/-- reopen_log_file (src/fs.c:90-98): close the old descriptor and open the
file of the same fixed name in the same directory; open(2) leaves the offset
at 0.  newContent is the contents of the freshly created file; the open is
modelled as succeeding. -/
def reopen_log_file (w : RWatch) (newContent : List Char) : RWatch :=
  { w with fd := some ⟨newContent, 0⟩ }

/-- One inotify_event record: the watch descriptor it belongs to, the length
field (0 means no name is attached) and the entry name. -/
structure INEvent where
  wd : Int
  len : Nat
  name : List Char
deriving DecidableEq, Repr

/-- The per-watch body of process_fs_event (src/fs.c:100-117): if the event's
watch descriptor matches, the event carries a name and the name equals the
watched file's name, the current file is drained through read_log_file and
then reopened; otherwise the watch is untouched. -/
def process_one_watch (cap : Nat) (ev : INEvent) (newContent : List Char)
    (w : RWatch) : RWatch × List (List Char) :=
  if ev.wd = w.watch_dir ∧ ev.len ≠ 0 ∧ ev.name = w.file_name then
    let d := read_log_file_drain cap w
    (reopen_log_file d.1 newContent, d.2.1)
  else (w, [])

/-- process_fs_event (src/fs.c:100-117): the event is run against every watch
in the registry, in order; the dispatched lines of all watches are concatenated. -/
def process_fs_event (cap : Nat) (ev : INEvent) (newContent : List Char) :
    List RWatch → List RWatch × List (List Char)
  | [] => ([], [])
  | w :: ws =>
    let p := process_one_watch cap ev newContent w
    let q := process_fs_event cap ev newContent ws
    (p.1 :: q.1, p.2 ++ q.2)

/-- prepare_watcher (src/qmail.plugin.c:52-73): the watch's file name is fixed
to "current", the directory is subscribed for IN_CREATE (the resulting token is
wd), the file is opened and lseek(fd, 0, SEEK_END) leaves the offset at
end of file; the reassembly state starts zeroed (the caller memsets the watch). -/
def prepare_watcher (wd : Int) (content : List Char) : RWatch :=
  { watch_dir := wd
    file_name := "current".toList
    fd := some ⟨content, content.length⟩
    st := ⟨[], false⟩ }

/-- enum watch_type: WATCH_LOG_FILE tails a log file, WATCH_QUEUE polls the
mail queue directory. -/
inductive WatchType
  | logFile
  | queue
deriving DecidableEq, Repr

/-- A registered watch as the interval cycle sees it: its kind and its
interval accumulator, reduced to the single counter the claims are about. -/
structure CWatch where
  type : WatchType
  acc : Int
deriving DecidableEq, Repr

/-- A registered aggregator: its kind and its accumulator. -/
structure CAgg where
  type : WatchType
  acc : Int
deriving DecidableEq, Repr

/-- Modelled from the spec: the aggregate callback that main invokes
(src/qmail.plugin.c:256) is defined nowhere under src — the stat_func
initializer in src/ratelimitspp.c sets no .aggregate member.  The
specification (spec.md §4.4) says combine folds one watch's interval
accumulator into the aggregator's, and its end-to-end example (§8) makes the
fold addition of counters. -/
def aggregate (a : CAgg) (w : CWatch) : CAgg := { a with acc := a.acc + w.acc }

/-- The watcher half of the interval cycle of main (src/qmail.plugin.c:243-262),
with the loop index flow exactly as written: the inner aggregator loop reuses
the same variable i as the outer watcher loop, so it leaves i equal to
aggregators.length, after which the outer for's update applies i++.  Reading
(read_log_file or the queue tick) only fills the watch's own accumulator from
the environment and is represented by the value the watch already holds;
print is modelled as succeeding; clear zeroes the watch's accumulator.
fuel bounds the iterations: none means the loop had not terminated within
fuel steps.  processed records, in order, the watch index each iteration
handled. -/
def watcherLoop : Nat → Nat → List CWatch → List CAgg → List Nat →
    Option (List CWatch × List CAgg × List Nat)
  | 0, _, _, _, _ => none
  | fuel + 1, i, ws, aggs, processed =>
    if h : i < ws.length then
      let w := ws.get ⟨i, h⟩
      let aggs1 := aggs.map (fun a => if a.type = w.type then aggregate a w else a)
      let ws1 := ws.set i { w with acc := 0 }
      watcherLoop fuel (aggs.length + 1) ws1 aggs1 (processed ++ [i])
    else some (ws, aggs, processed)

/-- How startup went: a chdir failure (src/qmail.plugin.c:186-189), an opendir
failure in detect_log_dirs (src/qmail.plugin.c:100-105), an inotify_init1
failure (src/fs.c:36-39) and an empty watcher registry (src/qmail.plugin.c:209)
all exit(1) before the loop.  A failed collector-state allocation is absorbed,
not fatal: prepare_watcher's ND_ALLOC only makes detect_log_dirs skip adding
that watch (src/qmail.plugin.c:117,124), and the returns of
append_queue_watcher and append_ratelimit_aggregator are ignored
(src/qmail.plugin.c:205,212) — so no allocation case appears here. -/
inductive SetupOutcome
  | ok
  | chdirFail
  | opendirFail
  | inotifyInitFail
  | noWatchers
deriving DecidableEq, Repr

/-- One wake-up of the poll loop of main (src/qmail.plugin.c:230-283):
the termination signal; a filesystem notification (readFail: reading the
inotify fd failed with an errno other than EAGAIN); a timer tick (sinkOk:
whether every snapshot write to stdout succeeded). -/
inductive LoopEvent
  | signal
  | fsEvent (readFail : Bool)
  | timer (sinkOk : Bool)
deriving DecidableEq, Repr

/-- The poll loop of main: a signal sets run = 0 and main falls through to
return 0; a failed read of the inotify fd calls exit(1) inside
process_fs_event_queue (src/fs.c:126-128); a failed snapshot write sets
run = 0 (src/qmail.plugin.c:264-268) and main falls through to return 0.
none: every event consumed, still blocked in poll. -/
def eventLoop : List LoopEvent → Option Nat
  | [] => none
  | LoopEvent.signal :: _ => some 0
  | LoopEvent.fsEvent rf :: rest => if rf then some 1 else eventLoop rest
  | LoopEvent.timer sinkOk :: rest => if sinkOk then eventLoop rest else some 0

/-- The process exit code of main as a function of how startup went and of the
events the loop wakes up for; none means the process is still running. -/
def mainExitCode : SetupOutcome → List LoopEvent → Option Nat
  | SetupOutcome.ok, evs => eventLoop evs
  | _, _ => some 1

/-- strstr(3) over byte lists: the suffix of s starting at the first
occurrence of pat, or none. -/
def strstr : List Char → List Char → Option (List Char)
  | s, pat =>
    if pat.isPrefixOf s then some s
    else
      match s with
      | [] => none
      | _ :: t => strstr t pat

/-- The marker ratelimitspp_process looks for first. -/
def rlsppMarker : List Char := "ratelimitspp:".toList

/-- The error sub-marker of ratelimitspp_process. -/
def errMarker : List Char := "Error:".toList

/-- The connection-timeout message of ratelimitspp_process. -/
def timeoutMsg : List Char := "Receiving data failed, connection timed out.".toList

/-- The rate-limited result marker of ratelimitspp_process. -/
def nokMarker : List Char := ";Result:NOK".toList

/-- struct ratelimitspp_statistics (src/ratelimitspp.c:15-19). -/
structure RlsppStats where
  conn_timeout : Int
  error : Int
  ratelimited : Int
deriving DecidableEq, Repr

/-- ratelimitspp_process (src/ratelimitspp.c:32-49).  The source text lacks
one closing brace for its outer if; it is completed here the only way the
function parses, which the specification (spec.md §9) also records as the
evident intent. -/
def ratelimitspp_process (line : List Char) (d : RlsppStats) : RlsppStats :=
  match strstr line rlsppMarker with
  | none => d
  | some p =>
    match strstr p errMarker with
    | some q =>
      if (strstr q timeoutMsg).isSome then { d with conn_timeout := d.conn_timeout + 1 }
      else { d with error := d.error + 1 }
    | none =>
      if (strstr p nokMarker).isSome then { d with ratelimited := d.ratelimited + 1 }
      else d

theorem linesAux_nil (cur : List Char) : linesAux cur [] = [] := rfl

theorem linesAux_cons (cur : List Char) (c : Char) (rest : List Char) :
    linesAux cur (c :: rest) =
      if c = nl then cur :: linesAux [] rest else linesAux (cur ++ [c]) rest := rfl

theorem tailAux_nil (cur : List Char) : tailAux cur [] = cur := rfl

theorem tailAux_cons (cur : List Char) (c : Char) (rest : List Char) :
    tailAux cur (c :: rest) =
      if c = nl then tailAux [] rest else tailAux (cur ++ [c]) rest := rfl

theorem linesAux_append_noNl (p : List Char) (hp : ∀ c ∈ p, c ≠ nl) :
    ∀ (cur s : List Char), linesAux cur (p ++ s) = linesAux (cur ++ p) s := by
  induction p with
  | nil => intro cur s; rw [List.nil_append, List.append_nil]
  | cons a p2 ih =>
    intro cur s
    have ha : a ≠ nl := hp a (List.mem_cons_self a p2)
    rw [List.cons_append, linesAux_cons, if_neg ha,
      ih (fun c hc => hp c (List.mem_cons_of_mem a hc)) (cur ++ [a]) s,
      List.append_assoc, List.singleton_append]

theorem tailAux_append_noNl (p : List Char) (hp : ∀ c ∈ p, c ≠ nl) :
    ∀ (cur s : List Char), tailAux cur (p ++ s) = tailAux (cur ++ p) s := by
  induction p with
  | nil => intro cur s; rw [List.nil_append, List.append_nil]
  | cons a p2 ih =>
    intro cur s
    have ha : a ≠ nl := hp a (List.mem_cons_self a p2)
    rw [List.cons_append, tailAux_cons, if_neg ha,
      ih (fun c hc => hp c (List.mem_cons_of_mem a hc)) (cur ++ [a]) s,
      List.append_assoc, List.singleton_append]

theorem linesAux_append (x : List Char) :
    ∀ (cur y : List Char),
      linesAux cur (x ++ y) = linesAux cur x ++ linesAux (tailAux cur x) y := by
  induction x with
  | nil => intro cur y; rw [List.nil_append, linesAux_nil, tailAux_nil, List.nil_append]
  | cons c x2 ih =>
    intro cur y
    by_cases hc : c = nl
    · subst hc
      rw [List.cons_append, linesAux_cons, if_pos rfl, ih [] y, linesAux_cons, if_pos rfl,
        tailAux_cons, if_pos rfl, List.cons_append]
    · rw [List.cons_append, linesAux_cons, if_neg hc, ih (cur ++ [c]) y, linesAux_cons,
        if_neg hc, tailAux_cons, if_neg hc]

theorem tailAux_append (x : List Char) :
    ∀ (cur y : List Char), tailAux cur (x ++ y) = tailAux (tailAux cur x) y := by
  induction x with
  | nil => intro cur y; rw [List.nil_append, tailAux_nil]
  | cons c x2 ih =>
    intro cur y
    by_cases hc : c = nl
    · subst hc
      rw [List.cons_append, tailAux_cons, if_pos rfl, ih [] y, tailAux_cons, if_pos rfl]
    · rw [List.cons_append, tailAux_cons, if_neg hc, ih (cur ++ [c]) y, tailAux_cons, if_neg hc]

theorem tailAux_noNl (s : List Char) :
    ∀ (cur : List Char), (∀ c ∈ cur, c ≠ nl) → ∀ c ∈ tailAux cur s, c ≠ nl := by
  induction s with
  | nil => intro cur hcur; simpa [tailAux_nil] using hcur
  | cons a s2 ih =>
    intro cur hcur
    by_cases ha : a = nl
    · subst ha
      rw [tailAux_cons, if_pos rfl]
      exact ih [] (by simp)
    · rw [tailAux_cons, if_neg ha]
      refine ih (cur ++ [a]) ?_
      intro c hc
      rcases List.mem_append.mp hc with h | h
      · exact hcur c h
      · rw [List.mem_singleton] at h; subst h; exact ha

theorem tailSeg_noNl (s : List Char) : ∀ c ∈ tailSeg s, c ≠ nl :=
  tailAux_noNl s [] (by simp)

theorem streamLines_of_noNl (s : List Char) (hs : ∀ c ∈ s, c ≠ nl) : streamLines s = [] := by
  have h := linesAux_append_noNl s hs [] []
  rw [List.append_nil, List.nil_append, linesAux_nil] at h
  exact h

theorem tailSeg_of_noNl (s : List Char) (hs : ∀ c ∈ s, c ≠ nl) : tailSeg s = s := by
  have h := tailAux_append_noNl s hs [] []
  rw [List.append_nil, List.nil_append, tailAux_nil] at h
  exact h

theorem streamLines_append (x y : List Char) :
    streamLines (x ++ y) = streamLines x ++ streamLines (tailSeg x ++ y) := by
  unfold streamLines tailSeg
  rw [linesAux_append, linesAux_append_noNl (tailAux [] x) (tailAux_noNl x [] (by simp)) [] y,
    List.nil_append]

theorem tailSeg_append (x y : List Char) :
    tailSeg (x ++ y) = tailSeg (tailSeg x ++ y) := by
  unfold tailSeg
  rw [tailAux_append, tailAux_append_noNl (tailAux [] x) (tailAux_noNl x [] (by simp)) [] y,
    List.nil_append]

theorem streamLines_noNl_cons (p r : List Char) (hp : ∀ c ∈ p, c ≠ nl) :
    streamLines (p ++ nl :: r) = p :: streamLines r := by
  unfold streamLines
  rw [linesAux_append_noNl p hp [] (nl :: r), List.nil_append, linesAux_cons, if_pos rfl]

theorem tailSeg_noNl_cons (p r : List Char) (hp : ∀ c ∈ p, c ≠ nl) :
    tailSeg (p ++ nl :: r) = tailSeg r := by
  unfold tailSeg
  rw [tailAux_append_noNl p hp [] (nl :: r), List.nil_append, tailAux_cons, if_pos rfl]

theorem firstNlSplit (y : List Char) :
    (∀ c ∈ y, c ≠ nl) ∨ ∃ a r, y = a ++ nl :: r ∧ ∀ c ∈ a, c ≠ nl := by
  induction y with
  | nil => left; simp
  | cons c y2 ih =>
    by_cases hc : c = nl
    · right; exact ⟨[], y2, by simp [hc], by simp⟩
    · rcases ih with h | ⟨a, r, hy, ha⟩
      · left
        intro d hd
        rcases List.mem_cons.mp hd with h1 | h1
        · subst h1; exact hc
        · exact h d h1
      · right
        refine ⟨c :: a, r, by simp [hy], ?_⟩
        intro d hd
        rcases List.mem_cons.mp hd with h1 | h1
        · subst h1; exact hc
        · exact ha d h1

theorem segsBounded_tail_lt (cap : Nat) (x y : List Char) (h : segsBounded cap (x ++ y)) :
    (tailSeg x).length < cap := by
  have hnn : ∀ c ∈ tailSeg x, c ≠ nl := tailSeg_noNl x
  rcases firstNlSplit y with hy | ⟨a, r, hy, ha⟩
  · have h1 : tailSeg (x ++ y) = tailSeg x ++ y := by
      rw [tailSeg_append]
      refine tailSeg_of_noNl _ ?_
      intro c hc
      rcases List.mem_append.mp hc with h1 | h1
      · exact hnn c h1
      · exact hy c h1
    have h2 := h.2
    rw [h1, List.length_append] at h2
    omega
  · have hnn2 : ∀ c ∈ tailSeg x ++ a, c ≠ nl := by
      intro c hc
      rcases List.mem_append.mp hc with h1 | h1
      · exact hnn c h1
      · exact ha c h1
    have hmem : (tailSeg x ++ a) ∈ streamLines (x ++ y) := by
      rw [streamLines_append, hy, ← List.append_assoc, streamLines_noNl_cons _ r hnn2]
      exact List.mem_append_right _ (List.mem_cons_self _ _)
    have h2 := h.1 _ hmem
    rw [List.length_append] at h2
    omega

theorem segsBounded_drop (cap : Nat) (x y : List Char) (h : segsBounded cap (x ++ y)) :
    segsBounded cap (tailSeg x ++ y) := by
  constructor
  · intro l hl
    apply h.1
    rw [streamLines_append x y]
    exact List.mem_append_right _ hl
  · have h2 := h.2
    rw [tailSeg_append x y] at h2
    exact h2

theorem segsBounded_pos (cap : Nat) (s : List Char) (h : segsBounded cap s) : 0 < cap :=
  Nat.lt_of_le_of_lt (Nat.zero_le _) h.2

theorem scanAux_nil (cap : Nat) (skip : Bool) (cur : List Char) :
    scanAux cap skip cur [] =
      if 0 < cur.length ∧ cur.length < cap then ([], cur, skip)
      else if cur.length = cap then ((if skip then [] else [cur.take (cap - 1)]), [], true)
      else ([], [], skip) := rfl

theorem scanAux_cons (cap : Nat) (skip : Bool) (cur : List Char) (c : Char) (rest : List Char) :
    scanAux cap skip cur (c :: rest) =
      if c = nl then
        ((if skip then (scanAux cap false [] rest).1 else cur :: (scanAux cap false [] rest).1),
          (scanAux cap false [] rest).2)
      else scanAux cap skip (cur ++ [c]) rest := rfl

theorem scanAux_normal (cap : Nat) :
    ∀ (data cur : List Char), (∀ c ∈ cur, c ≠ nl) →
      (cur ++ data).length ≤ cap → (tailSeg (cur ++ data)).length < cap →
      scanAux cap false cur data = (streamLines (cur ++ data), tailSeg (cur ++ data), false) := by
  intro data
  induction data with
  | nil =>
    intro cur hcur hlen hlast
    rw [List.append_nil] at hlen hlast ⊢
    rw [streamLines_of_noNl cur hcur, tailSeg_of_noNl cur hcur]
    rw [tailSeg_of_noNl cur hcur] at hlast
    rw [scanAux_nil]
    by_cases h0 : cur.length = 0
    · have hc0 : cur = [] := List.length_eq_zero.mp h0
      subst hc0
      rw [if_neg (by simp), if_neg (by simpa using Nat.ne_of_lt hlast)]
    · rw [if_pos ⟨Nat.pos_of_ne_zero h0, hlast⟩]
  | cons c rest ih =>
    intro cur hcur hlen hlast
    by_cases hc : c = nl
    · subst hc
      rw [scanAux_cons, if_pos rfl]
      rw [streamLines_noNl_cons cur rest hcur, tailSeg_noNl_cons cur rest hcur]
      have h1 : (([] : List Char) ++ rest).length ≤ cap := by
        rw [List.nil_append]
        rw [List.length_append, List.length_cons] at hlen
        omega
      have h2 : (tailSeg (([] : List Char) ++ rest)).length < cap := by
        rw [List.nil_append]
        rwa [tailSeg_noNl_cons cur rest hcur] at hlast
      have h3 := ih [] (by simp) h1 h2
      rw [List.nil_append] at h3
      rw [h3]
      simp
    · rw [scanAux_cons, if_neg hc]
      have hcur2 : ∀ d ∈ cur ++ [c], d ≠ nl := by
        intro d hd
        rcases List.mem_append.mp hd with h | h
        · exact hcur d h
        · rw [List.mem_singleton] at h; subst h; exact hc
      have heq : (cur ++ [c]) ++ rest = cur ++ c :: rest := by
        rw [List.append_assoc, List.singleton_append]
      have h3 := ih (cur ++ [c]) hcur2 (by rw [heq]; exact hlen) (by rw [heq]; exact hlast)
      rw [heq] at h3
      exact h3

theorem scanLines_normal (cap : Nat) (data : List Char)
    (hlen : data.length ≤ cap) (hlast : (tailSeg data).length < cap) :
    scanAux cap false [] data = (streamLines data, tailSeg data, false) := by
  have h := scanAux_normal cap data [] (by simp) (by rwa [List.nil_append])
    (by rwa [List.nil_append])
  rwa [List.nil_append] at h

theorem scanAux_skip_hasNl (cap : Nat) :
    ∀ (a : List Char), (∀ c ∈ a, c ≠ nl) → ∀ (cur r : List Char),
      scanAux cap true cur (a ++ nl :: r) = scanAux cap false [] r := by
  intro a
  induction a with
  | nil =>
    intro _ cur r
    rw [List.nil_append, scanAux_cons, if_pos rfl]
    simp
  | cons c a2 ih =>
    intro ha cur r
    have hc : c ≠ nl := ha c (List.mem_cons_self _ _)
    rw [List.cons_append, scanAux_cons, if_neg hc]
    exact ih (fun d hd => ha d (List.mem_cons_of_mem c hd)) (cur ++ [c]) r

theorem scanAux_skip_noNl (cap : Nat) :
    ∀ (data cur : List Char), (∀ c ∈ data, c ≠ nl) →
      scanAux cap true cur data =
        ([], if (cur ++ data).length < cap then cur ++ data else [], true) := by
  intro data
  induction data with
  | nil =>
    intro cur _
    rw [List.append_nil, scanAux_nil]
    by_cases h1 : 0 < cur.length ∧ cur.length < cap
    · rw [if_pos h1, if_pos h1.2]
    · rw [if_neg h1]
      by_cases h2 : cur.length = cap
      · rw [if_pos h2, if_neg (by omega : ¬cur.length < cap)]
        simp
      · rw [if_neg h2]
        by_cases h3 : cur.length < cap
        · have hc0 : cur = [] := List.length_eq_zero.mp (by omega)
          subst hc0
          rw [if_pos h3]
        · rw [if_neg h3]
  | cons c rest ih =>
    intro cur hd
    have hc : c ≠ nl := hd c (List.mem_cons_self _ _)
    rw [scanAux_cons, if_neg hc, ih (cur ++ [c]) (fun d hdd => hd d (List.mem_cons_of_mem c hdd)),
      List.append_assoc, List.singleton_append]

theorem scanAux_trunc (cap : Nat) :
    ∀ (data cur : List Char), (∀ c ∈ data, c ≠ nl) →
      (cur ++ data).length = cap →
      scanAux cap false cur data = ([(cur ++ data).take (cap - 1)], [], true) := by
  intro data
  induction data with
  | nil =>
    intro cur _ hlen
    rw [List.append_nil] at hlen ⊢
    rw [scanAux_nil, if_neg (by omega), if_pos hlen]
    simp
  | cons c rest ih =>
    intro cur hd hlen
    have hc : c ≠ nl := hd c (List.mem_cons_self _ _)
    rw [scanAux_cons, if_neg hc]
    have heq : (cur ++ [c]) ++ rest = cur ++ c :: rest := by
      rw [List.append_assoc, List.singleton_append]
    have h3 := ih (cur ++ [c]) (fun d hdd => hd d (List.mem_cons_of_mem c hdd))
      (by rw [heq]; exact hlen)
    rw [heq] at h3
    exact h3

theorem scanAux_buf_lt (cap : Nat) (hcap : 0 < cap) :
    ∀ (data : List Char) (skip : Bool) (cur : List Char),
      (scanAux cap skip cur data).2.1.length < cap := by
  intro data
  induction data with
  | nil =>
    intro skip cur
    rw [scanAux_nil]
    split_ifs with h1 h2
    · exact h1.2
    · exact hcap
    · exact hcap
    · exact hcap
  | cons c rest ih =>
    intro skip cur
    by_cases hc : c = nl
    · subst hc
      rw [scanAux_cons, if_pos rfl]
      exact ih false []
    · rw [scanAux_cons, if_neg hc]
      exact ih skip (cur ++ [c])

theorem processRead_buf_lt (cap : Nat) (hcap : 0 < cap) (st : ReaderSt) (chunk : List Char) :
    (processRead cap st chunk).1.buffered.length < cap := by
  unfold processRead
  exact scanAux_buf_lt cap hcap (st.buffered ++ chunk) st.skip []

theorem split_noNl_left :
    ∀ (x a y r : List Char), (∀ c ∈ x, c ≠ nl) → (∀ c ∈ a, c ≠ nl) →
      x ++ y = a ++ nl :: r →
      ∃ a2, a = x ++ a2 ∧ y = a2 ++ nl :: r ∧ ∀ c ∈ a2, c ≠ nl := by
  intro x
  induction x with
  | nil =>
    intro a y r _ ha h
    rw [List.nil_append] at h
    exact ⟨a, rfl, h, ha⟩
  | cons xc xt ih =>
    intro a y r hx ha h
    cases a with
    | nil =>
      rw [List.cons_append, List.nil_append] at h
      injection h with h1 h2
      exact absurd h1 (hx xc (List.mem_cons_self _ _))
    | cons ac bt =>
      rw [List.cons_append, List.cons_append] at h
      injection h with h1 h2
      obtain ⟨a2, ha2, hy, hnn⟩ := ih bt y r (fun c hc => hx c (List.mem_cons_of_mem xc hc))
        (fun c hc => ha c (List.mem_cons_of_mem ac hc)) h2
      refine ⟨a2, ?_, hy, hnn⟩
      rw [List.cons_append, ha2, h1]

theorem split_noNl_mid :
    ∀ (a d y r : List Char), (∀ c ∈ a, c ≠ nl) → nl ∈ d →
      d ++ y = a ++ nl :: r →
      ∃ r1, d = a ++ nl :: r1 ∧ r = r1 ++ y := by
  intro a
  induction a with
  | nil =>
    intro d y r _ hmem h
    cases d with
    | nil => simp at hmem
    | cons dc dt =>
      rw [List.cons_append, List.nil_append] at h
      injection h with h1 h2
      exact ⟨dt, by rw [List.nil_append, h1], h2.symm⟩
  | cons ac bt ih =>
    intro d y r ha hmem h
    cases d with
    | nil => simp at hmem
    | cons dc dt =>
      rw [List.cons_append, List.cons_append] at h
      injection h with h1 h2
      have hne : dc ≠ nl := by
        rw [h1]
        exact ha ac (List.mem_cons_self _ _)
      have hmem2 : nl ∈ dt := by
        rcases List.mem_cons.mp hmem with h3 | h3
        · exact absurd h3.symm hne
        · exact h3
      obtain ⟨r1, hd, hr⟩ := ih dt y r (fun c hc => ha c (List.mem_cons_of_mem ac hc)) hmem2 h2
      refine ⟨r1, ?_, hr⟩
      rw [List.cons_append, hd, h1]

theorem runReads_nil (cap : Nat) (st : ReaderSt) : runReads cap st [] = some (st, []) := rfl

theorem runReads_cons (cap : Nat) (b : List Char) (sk : Bool) (c : List Char)
    (cs : List (List Char)) :
    runReads cap ⟨b, sk⟩ (c :: cs) =
      if c ≠ [] ∧ c.length ≤ cap - b.length then
        match runReads cap (processRead cap ⟨b, sk⟩ c).1 cs with
        | some q => some (q.1, (processRead cap ⟨b, sk⟩ c).2 ++ q.2)
        | none => none
      else none := rfl

theorem runReads_normalPhase (cap : Nat) :
    ∀ (chunks : List (List Char)) (b : List Char) (st2 : ReaderSt) (out : List (List Char)),
      (∀ c ∈ b, c ≠ nl) → b.length < cap →
      segsBounded cap (b ++ chunks.flatten) →
      runReads cap ⟨b, false⟩ chunks = some (st2, out) →
      out = streamLines (b ++ chunks.flatten) ∧ st2 = ⟨tailSeg (b ++ chunks.flatten), false⟩ := by
  intro chunks
  induction chunks with
  | nil =>
    intro b st2 out hb _ _ hrun
    rw [runReads_nil] at hrun
    injection hrun with h1
    injection h1 with h1 h2
    rw [List.flatten_nil, List.append_nil]
    constructor
    · rw [← h2, streamLines_of_noNl b hb]
    · rw [← h1, tailSeg_of_noNl b hb]
  | cons c cs ih =>
    intro b st2 out hb hblt hseg hrun
    rw [runReads_cons] at hrun
    have hguard : c ≠ [] ∧ c.length ≤ cap - b.length := by
      by_contra hg
      rw [if_neg hg] at hrun
      exact Option.noConfusion hrun
    rw [if_pos hguard] at hrun
    have hdlen : (b ++ c).length ≤ cap := by
      rw [List.length_append]
      omega
    have hflat : b ++ (c :: cs).flatten = (b ++ c) ++ cs.flatten := by
      rw [List.flatten_cons, ← List.append_assoc]
    rw [hflat] at hseg
    have hlast : (tailSeg (b ++ c)).length < cap :=
      segsBounded_tail_lt cap (b ++ c) cs.flatten hseg
    have hscan := scanLines_normal cap (b ++ c) hdlen hlast
    have hpr : processRead cap ⟨b, false⟩ c =
        (⟨tailSeg (b ++ c), false⟩, streamLines (b ++ c)) := by
      dsimp only [processRead]
      rw [hscan]
    rw [hpr] at hrun
    cases hrec : runReads cap ⟨tailSeg (b ++ c), false⟩ cs with
    | none => rw [hrec] at hrun; exact Option.noConfusion hrun
    | some q =>
      rw [hrec] at hrun
      injection hrun with h1
      injection h1 with h1 h2
      obtain ⟨ho, hs⟩ := ih (tailSeg (b ++ c)) q.1 q.2 (tailSeg_noNl (b ++ c)) hlast
        (segsBounded_drop cap (b ++ c) cs.flatten hseg) (by rw [hrec])
      have h3 : streamLines (b ++ c) ++ q.2 = out := h2
      constructor
      · rw [← h3, ho, hflat, streamLines_append (b ++ c) cs.flatten]
      · rw [← h1, hs, hflat, tailSeg_append (b ++ c) cs.flatten]

theorem runReads_skipPhase (cap : Nat) :
    ∀ (chunks : List (List Char)) (b a r : List Char) (st2 : ReaderSt) (out : List (List Char)),
      (∀ c ∈ b, c ≠ nl) → b.length < cap →
      b ++ chunks.flatten = a ++ nl :: r → (∀ c ∈ a, c ≠ nl) →
      segsBounded cap r →
      runReads cap ⟨b, true⟩ chunks = some (st2, out) →
      out = streamLines r ∧ st2 = ⟨tailSeg r, false⟩ := by
  intro chunks
  induction chunks with
  | nil =>
    intro b a r st2 out hb _ hsplit ha _ _
    exfalso
    have hmem : nl ∈ b := by
      rw [List.flatten_nil, List.append_nil] at hsplit
      rw [hsplit]
      exact List.mem_append_right a (List.mem_cons_self _ _)
    exact hb nl hmem rfl
  | cons c cs ih =>
    intro b a r st2 out hb hblt hsplit ha hsegs hrun
    rw [runReads_cons] at hrun
    have hguard : c ≠ [] ∧ c.length ≤ cap - b.length := by
      by_contra hg
      rw [if_neg hg] at hrun
      exact Option.noConfusion hrun
    rw [if_pos hguard] at hrun
    have hdlen : (b ++ c).length ≤ cap := by
      rw [List.length_append]
      omega
    have hsplit2 : (b ++ c) ++ cs.flatten = a ++ nl :: r := by
      rw [List.flatten_cons, ← List.append_assoc] at hsplit
      exact hsplit
    by_cases hmem : nl ∈ b ++ c
    · obtain ⟨r1, hd, hr⟩ := split_noNl_mid a (b ++ c) cs.flatten r ha hmem hsplit2
      have hr1len : r1.length ≤ cap := by
        have h5 : (b ++ c).length = a.length + 1 + r1.length := by
          rw [hd, List.length_append, List.length_cons]
          omega
        omega
      have htseg : (tailSeg r1).length < cap := by
        apply segsBounded_tail_lt cap r1 cs.flatten
        rw [← hr]
        exact hsegs
      have hscan : scanAux cap true [] (b ++ c) = (streamLines r1, tailSeg r1, false) := by
        rw [hd, scanAux_skip_hasNl cap a ha [] r1]
        exact scanLines_normal cap r1 hr1len htseg
      have hpr : processRead cap ⟨b, true⟩ c = (⟨tailSeg r1, false⟩, streamLines r1) := by
        dsimp only [processRead]
        rw [hscan]
      rw [hpr] at hrun
      cases hrec : runReads cap ⟨tailSeg r1, false⟩ cs with
      | none => rw [hrec] at hrun; exact Option.noConfusion hrun
      | some q =>
        rw [hrec] at hrun
        injection hrun with h1
        injection h1 with h1 h2
        obtain ⟨ho, hs⟩ := runReads_normalPhase cap cs (tailSeg r1) q.1 q.2 (tailSeg_noNl r1)
          htseg (by apply segsBounded_drop; rw [← hr]; exact hsegs) (by rw [hrec])
        have h3 : streamLines r1 ++ q.2 = out := h2
        constructor
        · rw [← h3, ho, hr, streamLines_append r1 cs.flatten]
        · rw [← h1, hs, hr, tailSeg_append r1 cs.flatten]
    · have hnn : ∀ ch ∈ b ++ c, ch ≠ nl := fun ch hch heq => hmem (heq ▸ hch)
      obtain ⟨a2, ha2, hy, hnn2⟩ := split_noNl_left (b ++ c) a cs.flatten r hnn ha hsplit2
      have hscan := scanAux_skip_noNl cap (b ++ c) [] hnn
      rw [List.nil_append] at hscan
      rcases Nat.lt_or_ge (b ++ c).length cap with hlt | hge
      · have hpr : processRead cap ⟨b, true⟩ c = (⟨b ++ c, true⟩, []) := by
          dsimp only [processRead]
          rw [hscan, if_pos hlt]
        rw [hpr] at hrun
        cases hrec : runReads cap ⟨b ++ c, true⟩ cs with
        | none => rw [hrec] at hrun; exact Option.noConfusion hrun
        | some q =>
          rw [hrec] at hrun
          injection hrun with h1
          injection h1 with h1 h2
          obtain ⟨ho, hs⟩ := ih (b ++ c) a r q.1 q.2 hnn hlt hsplit2 ha hsegs (by rw [hrec])
          have h3 : q.2 = out := h2
          constructor
          · rw [← h3, ho]
          · rw [← h1, hs]
      · have hcapeq : (b ++ c).length = cap := Nat.le_antisymm hdlen hge
        have hpr : processRead cap ⟨b, true⟩ c = (⟨[], true⟩, []) := by
          dsimp only [processRead]
          rw [hscan, if_neg (by omega)]
        rw [hpr] at hrun
        have hcappos : 0 < cap := by
          have h4 : 0 < c.length := List.length_pos.mpr hguard.1
          rw [← hcapeq, List.length_append]
          omega
        cases hrec : runReads cap ⟨[], true⟩ cs with
        | none => rw [hrec] at hrun; exact Option.noConfusion hrun
        | some q =>
          rw [hrec] at hrun
          injection hrun with h1
          injection h1 with h1 h2
          obtain ⟨ho, hs⟩ := ih [] a2 r q.1 q.2 (by simp) hcappos
            (by rw [List.nil_append]; exact hy) hnn2 hsegs (by rw [hrec])
          have h3 : q.2 = out := h2
          constructor
          · rw [← h3, ho]
          · rw [← h1, hs]

theorem drainReads_complete (cap : Nat) (hcap : 0 < cap) :
    ∀ (fuel : Nat) (st : ReaderSt) (content : List Char) (off : Nat),
      st.buffered.length < cap → off ≤ content.length →
      content.length - off < fuel →
      (drainReads cap fuel st content off).2.1 = content.length := by
  intro fuel
  induction fuel with
  | zero => intro st content off _ _ h; omega
  | succ f ih =>
    intro st content off hb hoff hfuel
    simp only [drainReads]
    by_cases h0 : (content.drop off).length = 0
    · rw [if_pos h0]
      rw [List.length_drop] at h0
      show off = content.length
      omega
    · rw [if_neg h0]
      have hd : (content.drop off).length = content.length - off := List.length_drop _ _
      have h2 : 0 < (content.drop off).length := Nat.pos_of_ne_zero h0
      have hmin : ¬min (cap - st.buffered.length) (content.drop off).length = 0 := by
        omega
      rw [if_neg hmin]
      refine ih _ content _ ?_ ?_ ?_
      · exact processRead_buf_lt cap hcap st _
      · omega
      · omega

theorem read_log_file_drain_some (cap : Nat) (w : RWatch) (f : OpenFile)
    (hfd : w.fd = some f) :
    read_log_file_drain cap w =
      ({ w with
          st := (drainReads cap (f.content.length + 1) w.st f.content f.offset).1,
          fd := some ⟨f.content,
            (drainReads cap (f.content.length + 1) w.st f.content f.offset).2.1⟩ },
        (drainReads cap (f.content.length + 1) w.st f.content f.offset).2.2,
        NdErr.success) := by
  unfold read_log_file_drain
  rw [hfd]

/-- C1: for every byte stream in which every line — the trailing unterminated
segment included — is shorter than the buffer capacity, and for every way the
OS can split that stream into successive read(2) chunks, the lines the
reassembly reader dispatches to the collector are exactly the
newline-terminated lines of the unsplit stream: none lost, duplicated or
reordered across read boundaries. -/
theorem reader_fragmentation_correct (cap : Nat) (chunks : List (List Char))
    (st2 : ReaderSt) (out : List (List Char))
    (hseg : segsBounded cap chunks.flatten)
    (hrun : runReads cap ⟨[], false⟩ chunks = some (st2, out)) :
    out = streamLines chunks.flatten := by
  have h := runReads_normalPhase cap chunks [] st2 out (by simp)
    (segsBounded_pos cap chunks.flatten hseg) (by rwa [List.nil_append]) hrun
  rw [List.nil_append] at h
  exact h.1

/-- C1 witness: capacity 8, the stream "abcdef\n" split as "abc" then "def\n"
dispatches exactly the one line "abcdef". -/
theorem reader_fragmentation_correct_witness :
    [['a', 'b', 'c', 'd', 'e', 'f']] =
      streamLines ([['a', 'b', 'c'], ['d', 'e', 'f', nl]] : List (List Char)).flatten :=
  reader_fragmentation_correct 8 [['a', 'b', 'c'], ['d', 'e', 'f', nl]] ⟨[], false⟩
    [['a', 'b', 'c', 'd', 'e', 'f']] (by decide) (by rfl)

/-- C3: when the valid span reaches exactly capacity bytes without a
terminator, the reader dispatches that span exactly once, truncated to
capacity-1 bytes plus the written terminator, sets skipState to
SkippingRemainder and bufferedLength to 0; the true continuation of the line,
up to and including the next real terminator, is discarded, and the next
dispatched lines are exactly those after that terminator. -/
theorem overflow_truncated_line_once (cap : Nat) (b c a r : List Char)
    (chunks : List (List Char)) (st2 : ReaderSt) (out : List (List Char))
    (hb : ∀ ch ∈ b, ch ≠ nl) (hc : ∀ ch ∈ c, ch ≠ nl) (hcne : c ≠ [])
    (hlen : (b ++ c).length = cap)
    (hsplit : chunks.flatten = a ++ nl :: r) (ha : ∀ ch ∈ a, ch ≠ nl)
    (hr : segsBounded cap r)
    (hrun : runReads cap ⟨b, false⟩ (c :: chunks) = some (st2, out)) :
    processRead cap ⟨b, false⟩ c = (⟨[], true⟩, [(b ++ c).take (cap - 1)])
    ∧ out = (b ++ c).take (cap - 1) :: streamLines r := by
  have hnn : ∀ ch ∈ b ++ c, ch ≠ nl := by
    intro ch hch
    rcases List.mem_append.mp hch with h | h
    · exact hb ch h
    · exact hc ch h
  have hscan := scanAux_trunc cap (b ++ c) [] hnn (by rwa [List.nil_append])
  rw [List.nil_append] at hscan
  have hpr : processRead cap ⟨b, false⟩ c = (⟨[], true⟩, [(b ++ c).take (cap - 1)]) := by
    dsimp only [processRead]
    rw [hscan]
  refine ⟨hpr, ?_⟩
  rw [runReads_cons] at hrun
  have hguard : c ≠ [] ∧ c.length ≤ cap - b.length := by
    refine ⟨hcne, ?_⟩
    rw [List.length_append] at hlen
    omega
  rw [if_pos hguard, hpr] at hrun
  have hcappos : 0 < cap := by
    have h4 : 0 < c.length := List.length_pos.mpr hcne
    rw [List.length_append] at hlen
    omega
  cases hrec : runReads cap ⟨[], true⟩ chunks with
  | none => rw [hrec] at hrun; exact Option.noConfusion hrun
  | some q =>
    rw [hrec] at hrun
    injection hrun with h1
    injection h1 with h1 h2
    obtain ⟨ho, hs⟩ := runReads_skipPhase cap chunks [] a r q.1 q.2 (by simp) hcappos
      (by rw [List.nil_append]; exact hsplit) ha hr (by rw [hrec])
    have h3 : [(b ++ c).take (cap - 1)] ++ q.2 = out := h2
    rw [← h3, ho, List.singleton_append]

/-- C3 witness: capacity 4, span "abcd" with no terminator, continuation
"ef" ended by a terminator, then "gh\n": "abc" is dispatched once, "ef" is
discarded, and "gh" is the next dispatched line. -/
theorem overflow_truncated_line_once_witness :
    processRead 4 ⟨[], false⟩ ['a', 'b', 'c', 'd'] =
      (⟨[], true⟩, [(([] : List Char) ++ ['a', 'b', 'c', 'd']).take (4 - 1)])
    ∧ [['a', 'b', 'c'], ['g', 'h']] =
        (([] : List Char) ++ ['a', 'b', 'c', 'd']).take (4 - 1) :: streamLines ['g', 'h', nl] :=
  overflow_truncated_line_once 4 [] ['a', 'b', 'c', 'd'] ['e', 'f'] ['g', 'h', nl]
    [['e', 'f', nl, 'g'], ['h', nl]] ⟨[], false⟩ [['a', 'b', 'c'], ['g', 'h']]
    (by decide) (by decide) (by decide) (by decide) (by decide) (by decide) (by decide)
    (by rfl)

/-- C7: after any admissible sequence of reads from a state whose buffered
length is below capacity, the stored bufferedLength still satisfies
0 ≤ bufferedLength < capacity — a full terminator-less buffer is drained via
truncation and capacity is never reached as a stored value. -/
theorem buffered_length_invariant (cap : Nat) (st st2 : ReaderSt)
    (chunks : List (List Char)) (out : List (List Char))
    (hcap : 0 < cap) (hst : st.buffered.length < cap)
    (hrun : runReads cap st chunks = some (st2, out)) :
    st2.buffered.length < cap := by
  induction chunks generalizing st out with
  | nil =>
    rw [runReads_nil] at hrun
    injection hrun with h1
    injection h1 with h1 _
    rw [← h1]
    exact hst
  | cons c cs ih =>
    obtain ⟨b, sk⟩ := st
    rw [runReads_cons] at hrun
    by_cases hg : c ≠ [] ∧ c.length ≤ cap - b.length
    · rw [if_pos hg] at hrun
      cases hrec : runReads cap (processRead cap ⟨b, sk⟩ c).1 cs with
      | none => rw [hrec] at hrun; exact Option.noConfusion hrun
      | some q =>
        rw [hrec] at hrun
        injection hrun with h1
        injection h1 with h1 _
        exact ih (processRead cap ⟨b, sk⟩ c).1 q.2
          (processRead_buf_lt cap hcap ⟨b, sk⟩ c) (by rw [hrec, ← h1])
    · rw [if_neg hg] at hrun
      exact Option.noConfusion hrun

/-- C7 witness: capacity 2, one read of a single byte leaves one byte
buffered, below capacity. -/
theorem buffered_length_invariant_witness :
    (⟨['a'], false⟩ : ReaderSt).buffered.length < 2 :=
  buffered_length_invariant 2 ⟨[], false⟩ ⟨['a'], false⟩ [['a']] []
    (by decide) (by decide) (by rfl)

/-- C10: a terminator found at offset 0 of the valid span while skipState is
Normal makes the reader dispatch the empty line to the collector before
scanning on — empty lines are delivered, not filtered out. -/
theorem empty_line_dispatched (cap : Nat) (rest : List Char) :
    (processRead cap ⟨[], false⟩ (nl :: rest)).2 =
      [] :: (scanAux cap false [] rest).1 := by
  dsimp only [processRead]
  rw [List.nil_append, scanAux_cons, if_pos rfl]
  rfl

/-- C9: a line in which the collector's marker does not occur leaves every
field of the ratelimitspp accumulator unchanged; nothing is signalled. -/
theorem unmatched_line_frame (line : List Char) (d : RlsppStats)
    (h : strstr line rlsppMarker = none) :
    ratelimitspp_process line d = d := by
  unfold ratelimitspp_process
  rw [h]

/-- C9 witness: the marker-free line "hello" leaves the accumulator (1,2,3)
unchanged. -/
theorem unmatched_line_frame_witness :
    ratelimitspp_process "hello".toList ⟨1, 2, 3⟩ = ⟨1, 2, 3⟩ :=
  unmatched_line_frame "hello".toList ⟨1, 2, 3⟩ (by decide)

/-- C4 counterexample: a watch with two buffered bytes whose reads end in a
genuine I/O error; read_log_file returns ND_SUCCESS, not ReadError — the claim
that ReadError is signalled to the caller is false of the code. -/
theorem read_error_counterexample :
    read_log_file 8 ⟨1, ['c'], some ⟨[], 0⟩, ⟨['a', 'b'], false⟩⟩ [] ReadEnding.ioError
      = some (⟨1, ['c'], some ⟨[], 0⟩, ⟨['a', 'b'], false⟩⟩, [], NdErr.success)
    ∧ NdErr.success ≠ NdErr.readError :=
  ⟨rfl, by decide⟩

/-- C4 amended: read_log_file never inspects how the read sequence ended —
a genuine I/O error is absorbed exactly like would-block: the function returns
ND_SUCCESS, and with no readable data the watch (buffered bytes and descriptor
included) is returned untouched. -/
theorem read_error_absorbed (cap : Nat) (w : RWatch) (reads : List (List Char))
    (e1 e2 : ReadEnding) :
    read_log_file cap w reads e1 = read_log_file cap w reads e2
    ∧ (w.fd ≠ none → read_log_file cap w [] e1 = some (w, [], NdErr.success)) := by
  constructor
  · rfl
  · intro h
    obtain ⟨wd, fn, fd0, st0⟩ := w
    cases fd0 with
    | none => exact absurd rfl h
    | some f => rfl

/-- C4 amended witness: a valid descriptor, one buffered byte, no readable
data, an I/O error ending: the watch comes back untouched with ND_SUCCESS. -/
theorem read_error_absorbed_witness :
    read_log_file 8 ⟨1, [], some ⟨[], 0⟩, ⟨['x'], false⟩⟩ [] ReadEnding.ioError
      = some (⟨1, [], some ⟨[], 0⟩, ⟨['x'], false⟩⟩, [], NdErr.success) :=
  (read_error_absorbed 8 ⟨1, [], some ⟨[], 0⟩, ⟨['x'], false⟩⟩ [] ReadEnding.ioError
    ReadEnding.eof).2 (by decide)

/-- C2 is false of the code: the interval cycle's inner aggregator loop reuses
the outer loop variable i (src/qmail.plugin.c:253), so after the first watch
the outer index jumps to aggregators.length + 1 = 2.  With the registry
[watch0, watch1] and one aggregator, the cycle terminates having processed
only index 0 — watch1 is never read, never combined, never emitted, never
cleared; with three watches the cycle never terminates at all (no fuel
suffices). -/
theorem interval_cycle_index_reuse :
    watcherLoop 16 0 [⟨WatchType.logFile, 3⟩, ⟨WatchType.logFile, 5⟩]
        [⟨WatchType.logFile, 0⟩] []
      = some ([⟨WatchType.logFile, 0⟩, ⟨WatchType.logFile, 5⟩],
          [⟨WatchType.logFile, 3⟩], [0])
    ∧ watcherLoop 64 0
        [⟨WatchType.logFile, 3⟩, ⟨WatchType.logFile, 5⟩, ⟨WatchType.queue, 0⟩]
        [⟨WatchType.logFile, 0⟩] [] = none :=
  ⟨rfl, rfl⟩

/-- C5 is false of the code: with two TailedFile watches holding counters 3
and 5 and one matching aggregator, the interval cycle (because of the reused
loop index) folds only the first watch into the aggregator: the combined value
is 3, not 8. -/
theorem aggregator_combined_value :
    (watcherLoop 16 0 [⟨WatchType.logFile, 3⟩, ⟨WatchType.logFile, 5⟩]
        [⟨WatchType.logFile, 0⟩] []).map (fun q => q.2.1)
      = some [⟨WatchType.logFile, 3⟩]
    ∧ (3 : Int) ≠ 8 :=
  ⟨rfl, by decide⟩

/-- C6 counterexample: a snapshot-write (sink) failure makes main set run = 0
and fall through to return 0 — the process exit code is 0, not the claimed 1. -/
theorem sink_failure_exit_code_counterexample :
    mainExitCode SetupOutcome.ok [LoopEvent.timer false] = some 0 ∧ (0 : Nat) ≠ 1 :=
  ⟨rfl, by decide⟩

/-- C6 amended: the exit code is 0 on the clean termination signal and equally
0 when a sink write failure terminates the loop; the setup failures that are
fatal in the code (chdir, opendir, inotify_init1, an empty watcher registry)
exit with code 1, as does a failed read of the notification descriptor.
A failed collector-state allocation is absorbed during startup and terminates
nothing, so it appears in no branch. -/
theorem exit_code_cases (s : SetupOutcome) (evs evs2 : List LoopEvent) :
    mainExitCode SetupOutcome.ok (LoopEvent.signal :: evs) = some 0
    ∧ mainExitCode SetupOutcome.ok (LoopEvent.timer false :: evs) = some 0
    ∧ mainExitCode SetupOutcome.ok (LoopEvent.fsEvent true :: evs) = some 1
    ∧ (s ≠ SetupOutcome.ok → mainExitCode s evs2 = some 1) := by
  refine ⟨rfl, rfl, rfl, fun h => ?_⟩
  cases s with
  | ok => exact absurd rfl h
  | chdirFail => rfl
  | opendirFail => rfl
  | inotifyInitFail => rfl
  | noWatchers => rfl

/-- C6 amended witness: a chdir failure exits with code 1. -/
theorem exit_code_cases_witness :
    mainExitCode SetupOutcome.chdirFail [] = some 1 :=
  (exit_code_cases SetupOutcome.chdirFail [] []).2.2.2 (by decide)

/-- C8: on a notification whose watch token matches and whose entry name
equals the watched file's name, the watch first drains the current file
through the reassembly reader — reading it through to end of file — and only
then reopens the fixed name, the fresh descriptor positioned at offset 0;
whereas prepare_watcher opens the file at creation with the cursor at
end of file. -/
theorem rotation_drain_then_reopen (cap : Nat) (ev : INEvent) (nc : List Char)
    (w : RWatch) (f : OpenFile)
    (hfd : w.fd = some f)
    (hwd : ev.wd = w.watch_dir) (hlen0 : ev.len ≠ 0) (hname : ev.name = w.file_name)
    (hcap : 0 < cap) (hb : w.st.buffered.length < cap)
    (hoff : f.offset ≤ f.content.length) :
    process_one_watch cap ev nc w =
      ({ w with
          st := (drainReads cap (f.content.length + 1) w.st f.content f.offset).1,
          fd := some ⟨nc, 0⟩ },
        (drainReads cap (f.content.length + 1) w.st f.content f.offset).2.2)
    ∧ (drainReads cap (f.content.length + 1) w.st f.content f.offset).2.1
        = f.content.length
    ∧ (prepare_watcher ev.wd nc).fd = some ⟨nc, nc.length⟩ := by
  refine ⟨?_, ?_, rfl⟩
  · unfold process_one_watch
    rw [if_pos ⟨hwd, hlen0, hname⟩, read_log_file_drain_some cap w f hfd]
    rfl
  · exact drainReads_complete cap hcap (f.content.length + 1) w.st f.content f.offset
      hb hoff (by omega)

/-- C8 witness: a watch on "current" containing "x\ny" read up to offset 1;
on a matching creation event the remainder "\ny" is drained (dispatching the
empty line, buffering "y") and the new file "z" is attached at offset 0;
a freshly prepared watch on "abc" starts at offset 3 = end of file. -/
theorem rotation_drain_then_reopen_witness :
    process_one_watch 4 ⟨7, 1, "current".toList⟩ ['z']
        ⟨7, "current".toList, some ⟨['x', nl, 'y'], 1⟩, ⟨[], false⟩⟩ =
      (⟨7, "current".toList, some ⟨['z'], 0⟩, ⟨['y'], false⟩⟩, [[]])
    ∧ (prepare_watcher 7 ['a', 'b', 'c']).fd = some ⟨['a', 'b', 'c'], 3⟩ := by
  have h := rotation_drain_then_reopen 4 ⟨7, 1, "current".toList⟩ ['z']
    ⟨7, "current".toList, some ⟨['x', nl, 'y'], 1⟩, ⟨[], false⟩⟩ ⟨['x', nl, 'y'], 1⟩
    rfl rfl (by decide) rfl (by decide) (by decide) (by decide)
  refine ⟨?_, rfl⟩
  rw [h.1]
  rfl
